import Mathlib

/-!
Shallow embedding of `tensorflow_recommenders/examples/movielens.py`.

The two routines under study are `evaluate` (precision/recall at `k` for an
embedding retrieval model) and `movielens_to_listwise` together with its helper
`_sample_list` (conversion of pointwise ratings into listwise examples).

Modelling conventions:
* item and user identifiers are opaque types with decidable equality;
* floating point scores and ratings are modelled as rationals;
* Python exceptions (`KeyError` from a vocabulary miss, `ValueError` from
  `random.sample`) are modelled as `Except.error`;
* `np.mean` of an empty list, which is NaN, is modelled as `none`;
* the global `random` generator is threaded explicitly as an `Rng` state;
* the iteration order in which Python's `random.sample` sees the
  `negative_movie_id_set` set object is an explicit parameter `setOrder`,
  since Python set enumeration order is fixed neither by the inputs nor by
  the random seed.
-/

namespace Movielens

/-- Explicit state of the pseudo-random generator (Python's global `random`
module threaded through the computation): a draw yields the current state and
advances it by a linear congruential step. -/
structure Rng where
  state : Nat
deriving DecidableEq

/-- One raw draw from the generator. -/
def Rng.next (r : Rng) : Nat × Rng :=
  (r.state, ⟨(r.state * 1103515245 + 12345) % 2147483648⟩)

/-- Draw a natural number below `n`: used to pick a position inside the
remaining sampling population. -/
def randBelow (r : Rng) (n : Nat) : Nat × Rng :=
  (r.next.1 % n, r.next.2)

/-- Core of the model of Python's `random.sample`: draw `n` elements without
replacement by repeatedly picking a position in the remaining population and
removing it. -/
def sampleGo {α : Type} : Nat → List α → Rng → List α × Rng
  | 0, _, r => ([], r)
  | _ + 1, [], r => ([], r)
  | n + 1, p :: ps, r =>
    let i := (randBelow r (p :: ps).length).1
    let r' := (randBelow r (p :: ps).length).2
    let rest := sampleGo n ((p :: ps).eraseIdx i) r'
    ((p :: ps).getD i p :: rest.1, rest.2)

/-- Model of Python's `random.sample(population, k)`: a `ValueError` (modelled
as `Except.error`) when `k` exceeds the population size, otherwise `k` draws
without replacement. -/
def sample {α : Type} (r : Rng) (population : List α) (k : Nat) :
    Except Unit (List α × Rng) :=
  if k ≤ population.length then .ok (sampleGo k population r) else .error ()

/-- Helper for `vocabLookup`: index of the last occurrence of `x` in `mids`,
offset by `i`.  `dict(zip(ids, range(n)))` keeps the last binding of a
duplicated key. -/
def vocabGo {α : Type} [DecidableEq α] : List α → α → Nat → Option Nat
  | [], _, _ => none
  | m :: ms, x, i =>
    match vocabGo ms x (i + 1) with
    | some j => some j
    | none => if m = x then some i else none

/-- Model of `movie_vocabulary = dict(zip(movie_ids.tolist(), range(len(movie_ids))))`
as a lookup function from item identifier to dense index. -/
def vocabLookup {α : Type} [DecidableEq α] (mids : List α) (x : α) : Option Nat :=
  vocabGo mids x 0

/-- One `defaultdict` append, `index[u].append(m)`: a fresh user starts from
the empty sequence; user insertion order is preserved. -/
def appendIdx {U : Type} [DecidableEq U] :
    List (U × List Nat) → U → Nat → List (U × List Nat)
  | [], u, m => [(u, [m])]
  | (v, ms) :: rest, u, m =>
    if v = u then (v, ms ++ [m]) :: rest else (v, ms) :: appendIdx rest u m

/-- The index-building loop of `evaluate`
(`for row in dataset: index[user_id].append(vocab[movie_id])`); a movie id
missing from the vocabulary is a `KeyError`, modelled as `Except.error`. -/
def buildIndexGo {α U : Type} [DecidableEq α] [DecidableEq U] (mids : List α) :
    List (U × List Nat) → List (U × α) → Except Unit (List (U × List Nat))
  | acc, [] => .ok acc
  | acc, (u, m) :: rest =>
    match vocabLookup mids m with
    | none => .error ()
    | some i => buildIndexGo mids (appendIdx acc u i) rest

/-- Per-user interaction index for one split, starting from the empty
`defaultdict`. -/
def buildIndex {α U : Type} [DecidableEq α] [DecidableEq U] (mids : List α)
    (rows : List (U × α)) : Except Unit (List (U × List Nat)) :=
  buildIndexGo mids [] rows

/-- `defaultdict` read access `train_user_to_movies[user_id]`: the empty
sequence for an unknown user. -/
def lookupOr {U : Type} [DecidableEq U] : List (U × List Nat) → U → List Nat
  | [], _ => []
  | (v, ms) :: rest, u => if v = u then ms else lookupOr rest u

/-- Dot product of two embedding vectors; `user_embedding @ movie_embeddings.T`
computes one such product per catalog movie. -/
def dot (xs ys : List ℚ) : ℚ :=
  ((xs.zip ys).map fun p => p.1 * p.2).sum

/-- `scores[train_movies] = -1e6`: fancy-indexing assignment masking every
train-time position of the score vector with the sentinel value. -/
def maskScores (scores : List ℚ) (trainM : List Nat) : List ℚ :=
  trainM.foldl (fun s i => s.set i (-1000000)) scores

/-- The comparison realised by `np.argsort(-scores)`: position `i` precedes
position `j` when its score is strictly larger; equal scores are ordered by
position.  (The source's tie-break is whatever the underlying sort produces;
the model fixes position order as its concrete choice.) -/
def rankLE (s : List ℚ) (i j : Nat) : Prop :=
  s.getD j 0 < s.getD i 0 ∨ (s.getD i 0 = s.getD j 0 ∧ i ≤ j)

instance rankLE.instDecidable (s : List ℚ) (i j : Nat) : Decidable (rankLE s i j) :=
  inferInstanceAs (Decidable (_ ∨ _))

instance rankLE.instIsTotal (s : List ℚ) : IsTotal Nat (rankLE s) where
  total i j := by
    rcases lt_trichotomy (s.getD i 0) (s.getD j 0) with h | h | h
    · exact Or.inr (Or.inl h)
    · rcases Nat.le_total i j with hij | hij
      · exact Or.inl (Or.inr ⟨h, hij⟩)
      · exact Or.inr (Or.inr ⟨h.symm, hij⟩)
    · exact Or.inl (Or.inl h)

instance rankLE.instIsTrans (s : List ℚ) : IsTrans Nat (rankLE s) where
  trans i j k hij hjk := by
    rcases hij with h₁ | ⟨e₁, l₁⟩ <;> rcases hjk with h₂ | ⟨e₂, l₂⟩
    · exact Or.inl (h₂.trans h₁)
    · exact Or.inl (e₂ ▸ h₁)
    · exact Or.inl (e₁ ▸ h₂)
    · exact Or.inr ⟨e₁.trans e₂, l₁.trans l₂⟩

/-- `np.argsort(-scores)`: the positions `0 .. N-1` sorted by decreasing
score. -/
def argsortDesc (scores : List ℚ) : List Nat :=
  (List.range scores.length).insertionSort (rankLE scores)

/-- Per-user body of the evaluation loop: score every catalog movie against
the user (the catalog embeddings are the same for every user), mask train-time
movies when a train dataset was supplied, and keep the `k` best positions. -/
def userTopK {α U : Type} [DecidableEq U] (userEmb : U → List ℚ)
    (movieEmb : α → List ℚ) (mids : List α)
    (trainIdx : Option (List (U × List Nat))) (k : Nat) (u : U) : List Nat :=
  let scores := (mids.map movieEmb).map (dot (userEmb u))
  let scores :=
    match trainIdx with
    | none => scores
    | some tIdx => maskScores scores (lookupOr tIdx u)
  (argsortDesc scores).take k

/-- The metric loop of `evaluate`: one precision value and one recall value
per user of the test index, in index order. -/
def metricsGo {α U : Type} [DecidableEq U] (userEmb : U → List ℚ)
    (movieEmb : α → List ℚ) (mids : List α)
    (trainIdx : Option (List (U × List Nat))) (k : Nat) :
    List (U × List Nat) → List ℚ × List ℚ
  | [] => ([], [])
  | (u, testM) :: rest =>
    let top := userTopK userEmb movieEmb mids trainIdx k u
    let hits := testM.countP fun x => decide (x ∈ top)
    let rest' := metricsGo userEmb movieEmb mids trainIdx k rest
    (((hits : ℚ) / (k : ℚ)) :: rest'.1, ((hits : ℚ) / (testM.length : ℚ)) :: rest'.2)

/-- `np.mean`: `none` models the NaN produced on an empty list. -/
def npMean (l : List ℚ) : Option ℚ :=
  if l.isEmpty then none else some (l.sum / (l.length : ℚ))

/-- The `if train is not None` part of `evaluate`: build the train-side index
only when a train dataset was supplied. -/
def trainIndexOpt {α U : Type} [DecidableEq α] [DecidableEq U] (mids : List α) :
    Option (List (U × α)) → Except Unit (Option (List (U × List Nat)))
  | none => .ok none
  | some tr =>
    match buildIndex mids tr with
    | .error e => .error e
    | .ok ti => .ok (some ti)

/-- Model of `evaluate`: build the movie vocabulary and the train/test
interaction indices (a movie id outside the catalog raises `KeyError`,
modelled as `Except.error`), then compute masked top-`k` precision and recall
per test user and return the pair of means
`("precision_at_k", "recall_at_k")`. -/
def evaluate {α U : Type} [DecidableEq α] [DecidableEq U]
    (userEmb : U → List ℚ) (movieEmb : α → List ℚ)
    (test : List (U × α)) (mids : List α)
    (train : Option (List (U × α))) (k : Nat) :
    Except Unit (Option ℚ × Option ℚ) :=
  match trainIndexOpt mids train with
  | .error e => .error e
  | .ok trainIdx =>
    match buildIndex mids test with
    | .error e => .error e
    | .ok testIdx =>
      let pr := metricsGo userEmb movieEmb mids trainIdx k testIdx
      .ok (npMean pr.1, npMean pr.2)

/-- One append step of the grouping pass of `movielens_to_listwise`: push one
`(movie_id, user_rating)` observation onto the user's two parallel feature
lists, creating the user on first appearance. -/
def appendPair {α U : Type} [DecidableEq U] :
    List (U × List α × List ℚ) → U → α → ℚ → List (U × List α × List ℚ)
  | [], u, m, q => [(u, ([m], [q]))]
  | (v, ls) :: rest, u, m, q =>
    if v = u then (v, (ls.1 ++ [m], ls.2 ++ [q])) :: rest
    else (v, ls) :: appendPair rest u m q

/-- Grouping pass of `movielens_to_listwise` (`example_lists_by_user`):
per-user parallel lists of movie ids and ratings, users kept in
first-appearance order. -/
def groupRatings {α U : Type} [DecidableEq U] (rows : List (U × α × ℚ)) :
    List (U × List α × List ℚ) :=
  rows.foldl (fun acc r => appendPair acc r.1 r.2.1 r.2.2) []

/-- Model of `_sample_list`: positions of `numPos` positives are drawn without
replacement from the user's feature lists (ids and ratings read at the same
sampled positions), `numNeg` negatives are drawn without replacement from the
enumerated negative id set and scored 0, and the result is positives followed
by negatives.  The `feature_lists` dict is passed as its two parallel lists. -/
def sampleList {α : Type} [Inhabited α] (negativeMovieIds : List α)
    (movieIds : List α) (userRatings : List ℚ)
    (numPos numNeg : Nat) (r : Rng) : Except Unit ((List α × List ℚ) × Rng) :=
  match sample r (List.range movieIds.length) numPos with
  | .error e => .error e
  | .ok (sampledIndices, r₁) =>
    let sampledPosMovieIds := sampledIndices.map fun idx => movieIds.getD idx default
    let sampledPosRatings := sampledIndices.map fun idx => userRatings.getD idx 0
    match sample r₁ negativeMovieIds numNeg with
    | .error e => .error e
    | .ok (sampledNegMovieIds, r₂) =>
      let sampledNegRatings := List.replicate numNeg (0 : ℚ)
      .ok ((sampledPosMovieIds ++ sampledNegMovieIds,
            sampledPosRatings ++ sampledNegRatings), r₂)

/-- The `for _ in range(cnt)` sampling loop of `movielens_to_listwise` for one
user and one split: `cnt` list examples drawn in sequence, threading the
generator. -/
def sampleLists {α : Type} [Inhabited α] (negs mids : List α) (rats : List ℚ)
    (numPos numNeg : Nat) : Nat → Rng → Except Unit (List (List α × List ℚ) × Rng)
  | 0, r => .ok ([], r)
  | c + 1, r =>
    match sampleList negs mids rats numPos numNeg r with
    | .error e => .error e
    | .ok (ex, r₁) =>
      match sampleLists negs mids rats numPos numNeg c r₁ with
      | .error e => .error e
      | .ok (rest, r₂) => .ok (ex :: rest, r₂)

/-- The per-user loop of `movielens_to_listwise`: for each user, compute the
negative id set (`movie_id_vocab - rated_movie_id_set`, enumerated by
`setOrder`), then emit `trainCnt` train lists and `testCnt` test lists. -/
def listwiseGo {α U : Type} [DecidableEq α] [Inhabited α]
    (setOrder : List α → List α) (vocabSet : List α)
    (numPos numNeg trainCnt testCnt : Nat) :
    List (U × List α × List ℚ) → Rng →
      Except Unit (List (U × List α × List ℚ) × List (U × List α × List ℚ) × Rng)
  | [], r => .ok ([], [], r)
  | (u, feats) :: rest, r =>
    let negs := setOrder (vocabSet.filter fun m => decide (m ∉ feats.1))
    match sampleLists negs feats.1 feats.2 numPos numNeg trainCnt r with
    | .error e => .error e
    | .ok (trainLists, r₁) =>
      match sampleLists negs feats.1 feats.2 numPos numNeg testCnt r₁ with
      | .error e => .error e
      | .ok (testLists, r₂) =>
        match listwiseGo setOrder vocabSet numPos numNeg trainCnt testCnt rest r₂ with
        | .error e => .error e
        | .ok (trainRest, testRest, r₃) =>
          .ok (trainLists.map (fun p => (u, p.1, p.2)) ++ trainRest,
               testLists.map (fun p => (u, p.1, p.2)) ++ testRest, r₃)

/-- Model of `movielens_to_listwise`: group the ratings by user, build the
movie vocabulary set from the movie dataset, and sample the train and test
listwise datasets.  `setOrder` is the enumeration order in which
`random.sample` sees each negative set object. -/
def movielens_to_listwise {α U : Type} [DecidableEq α] [DecidableEq U] [Inhabited α]
    (setOrder : List α → List α) (ratings : List (U × α × ℚ)) (movieIds : List α)
    (trainNumListPerUser testNumListPerUser numPos numNeg : Nat) (r : Rng) :
    Except Unit (List (U × List α × List ℚ) × List (U × List α × List ℚ)) :=
  match listwiseGo setOrder movieIds.dedup numPos numNeg
      trainNumListPerUser testNumListPerUser (groupRatings ratings) r with
  | .error e => .error e
  | .ok (tr, te, _) => .ok (tr, te)

/-! ### Lemmas about the sampling model -/

theorem randBelow_lt (r : Rng) {n : Nat} (h : 0 < n) : (randBelow r n).1 < n :=
  Nat.mod_lt _ h

/-- Unfolding equation for the non-trivial case of `sampleGo`. -/
theorem sampleGo_cons {α : Type} (n : Nat) (p : α) (ps : List α) (r : Rng) :
    (sampleGo (n + 1) (p :: ps) r).1 =
      (p :: ps).getD (randBelow r (p :: ps).length).1 p ::
        (sampleGo n ((p :: ps).eraseIdx (randBelow r (p :: ps).length).1)
          (randBelow r (p :: ps).length).2).1 := rfl

theorem sampleGo_length {α : Type} (n : Nat) :
    ∀ (pop : List α) (r : Rng), n ≤ pop.length → ((sampleGo n pop r).1).length = n := by
  induction n with
  | zero => intro pop r _; rfl
  | succ n ih =>
    intro pop r h
    match pop with
    | [] => simp at h
    | p :: ps =>
      have hi : (randBelow r (p :: ps).length).1 < (p :: ps).length :=
        randBelow_lt _ (by simp)
      rw [sampleGo_cons, List.length_cons, ih _ _ ?_]
      rw [List.length_eraseIdx_of_lt hi]
      have := List.length_cons p ps
      omega

theorem sampleGo_subset {α : Type} (n : Nat) :
    ∀ (pop : List α) (r : Rng), (sampleGo n pop r).1 ⊆ pop := by
  induction n with
  | zero => intro pop r x hx; simp [sampleGo] at hx
  | succ n ih =>
    intro pop r x hx
    match pop with
    | [] => simp [sampleGo] at hx
    | p :: ps =>
      rw [sampleGo_cons, List.mem_cons] at hx
      rcases hx with hx | hx
      · subst hx
        have hi : (randBelow r (p :: ps).length).1 < (p :: ps).length :=
          randBelow_lt _ (by simp)
        rw [List.getD_eq_getElem _ _ hi]
        exact List.getElem_mem hi
      · exact List.eraseIdx_subset _ _ (ih _ _ hx)

theorem sampleGo_nodup {α : Type} (n : Nat) :
    ∀ (pop : List α) (r : Rng), pop.Nodup → ((sampleGo n pop r).1).Nodup := by
  induction n with
  | zero => intro pop r _; simp [sampleGo]
  | succ n ih =>
    intro pop r hnd
    match pop with
    | [] => simp [sampleGo]
    | p :: ps =>
      have hi : (randBelow r (p :: ps).length).1 < (p :: ps).length :=
        randBelow_lt _ (by simp)
      rw [sampleGo_cons, List.nodup_cons]
      refine ⟨fun hmem => ?_, ih _ _ (hnd.eraseIdx _)⟩
      have hsub := sampleGo_subset n ((p :: ps).eraseIdx (randBelow r (p :: ps).length).1)
        (randBelow r (p :: ps).length).2 hmem
      rw [List.getD_eq_getElem _ _ hi] at hsub
      rw [List.mem_eraseIdx_iff_getElem] at hsub
      obtain ⟨j, hj, hne, hje⟩ := hsub
      exact hne (hnd.getElem_inj_iff.mp hje)

theorem sample_ok_iff {α : Type} {r : Rng} {pop : List α} {k : Nat} :
    (∃ res, sample r pop k = .ok res) ↔ k ≤ pop.length := by
  constructor
  · rintro ⟨res, hres⟩
    by_contra hk
    simp [sample, hk] at hres
  · intro hk
    exact ⟨sampleGo k pop r, by simp [sample, hk]⟩

theorem sample_error {α : Type} {r : Rng} {pop : List α} {k : Nat}
    (h : pop.length < k) : sample r pop k = .error () := by
  have : ¬ k ≤ pop.length := by omega
  simp [sample, this]

theorem sample_ok_inv {α : Type} {r : Rng} {pop : List α} {k : Nat}
    {l : List α} {r' : Rng} (h : sample r pop k = .ok (l, r')) :
    k ≤ pop.length ∧ l = (sampleGo k pop r).1 := by
  by_cases hk : k ≤ pop.length
  · refine ⟨hk, ?_⟩
    simp only [sample, if_pos hk] at h
    exact (congrArg Prod.fst (Except.ok.inj h)).symm
  · simp [sample, hk] at h

theorem sample_ok_length {α : Type} {r : Rng} {pop : List α} {k : Nat}
    {l : List α} {r' : Rng} (h : sample r pop k = .ok (l, r')) : l.length = k := by
  obtain ⟨hk, hl⟩ := sample_ok_inv h
  rw [hl]
  exact sampleGo_length _ _ _ hk

theorem sample_ok_subset {α : Type} {r : Rng} {pop : List α} {k : Nat}
    {l : List α} {r' : Rng} (h : sample r pop k = .ok (l, r')) : l ⊆ pop := by
  obtain ⟨_, hl⟩ := sample_ok_inv h
  rw [hl]
  exact sampleGo_subset _ _ _

theorem sample_ok_nodup {α : Type} {r : Rng} {pop : List α} {k : Nat}
    {l : List α} {r' : Rng} (hnd : pop.Nodup)
    (h : sample r pop k = .ok (l, r')) : l.Nodup := by
  obtain ⟨_, hl⟩ := sample_ok_inv h
  rw [hl]
  exact sampleGo_nodup _ _ _ hnd

/-! ### Lemmas about the vocabulary model -/

theorem vocabGo_eq_none_iff {α : Type} [DecidableEq α] :
    ∀ (ms : List α) (x : α) (i : Nat), vocabGo ms x i = none ↔ x ∉ ms := by
  intro ms
  induction ms with
  | nil => simp [vocabGo]
  | cons m ms ih =>
    intro x i
    cases hrec : vocabGo ms x (i + 1) with
    | some j =>
      have hx : x ∈ ms := by
        by_contra hxm
        rw [(ih x (i + 1)).mpr hxm] at hrec
        exact Option.noConfusion hrec
      simp only [vocabGo, hrec]
      simp [hx]
    | none =>
      have hx : x ∉ ms := (ih x (i + 1)).mp hrec
      simp only [vocabGo, hrec]
      by_cases hm : m = x
      · simp [hm]
      · simp [hm, hx, Ne.symm hm]

theorem vocabGo_bound {α : Type} [DecidableEq α] :
    ∀ (ms : List α) (x : α) (i j : Nat), vocabGo ms x i = some j →
      i ≤ j ∧ j < i + ms.length := by
  intro ms
  induction ms with
  | nil => intro x i j h; simp [vocabGo] at h
  | cons m ms ih =>
    intro x i j h
    simp only [vocabGo] at h
    cases hrec : vocabGo ms x (i + 1) with
    | some j' =>
      rw [hrec] at h
      obtain ⟨h₁, h₂⟩ := ih x (i + 1) j' hrec
      simp only [Option.some.injEq] at h
      subst h
      simp only [List.length_cons]
      omega
    | none =>
      rw [hrec] at h
      by_cases hm : m = x
      · simp only [if_pos hm, Option.some.injEq] at h
        subst h
        simp only [List.length_cons]
        omega
      · simp [hm] at h

theorem vocabGo_getElem_of_nodup {α : Type} [DecidableEq α] :
    ∀ (ms : List α), ms.Nodup → ∀ (i d : Nat) (hd : d < ms.length),
      vocabGo ms ms[d] i = some (i + d) := by
  intro ms
  induction ms with
  | nil => intro _ i d hd; simp at hd
  | cons m ms ih =>
    intro hnd i d hd
    rcases List.nodup_cons.mp hnd with ⟨hm, hnd'⟩
    match d with
    | 0 =>
      have hnone : vocabGo ms m (i + 1) = none := (vocabGo_eq_none_iff ms m (i + 1)).mpr hm
      simp only [List.getElem_cons_zero, vocabGo, hnone]
      simp
    | d + 1 =>
      have hd' : d < ms.length := by simpa using hd
      have hrec := ih hnd' (i + 1) d hd'
      simp only [List.getElem_cons_succ, vocabGo, hrec]
      congr 1
      omega

theorem vocabLookup_eq_none_iff {α : Type} [DecidableEq α] (mids : List α) (x : α) :
    vocabLookup mids x = none ↔ x ∉ mids :=
  vocabGo_eq_none_iff mids x 0

theorem vocabLookup_getElem_of_nodup {α : Type} [DecidableEq α] {mids : List α}
    (h : mids.Nodup) (d : Nat) (hd : d < mids.length) :
    vocabLookup mids mids[d] = some d := by
  have := vocabGo_getElem_of_nodup mids h 0 d hd
  simpa [vocabLookup] using this

theorem vocabLookup_lt {α : Type} [DecidableEq α] {mids : List α} {x : α} {j : Nat}
    (h : vocabLookup mids x = some j) : j < mids.length := by
  have := vocabGo_bound mids x 0 j h
  omega

/-! ### Lemmas about the interaction index -/

theorem buildIndexGo_error {α U : Type} [DecidableEq α] [DecidableEq U] (mids : List α) :
    ∀ (rows : List (U × α)) (acc : List (U × List Nat)),
      (∃ p ∈ rows, vocabLookup mids p.2 = none) →
      buildIndexGo mids acc rows = .error () := by
  intro rows
  induction rows with
  | nil =>
    rintro acc ⟨p, hp, _⟩
    simp at hp
  | cons row rest ih =>
    rintro acc ⟨p, hp, hnone⟩
    obtain ⟨u, m⟩ := row
    cases hv : vocabLookup mids m with
    | none => simp [buildIndexGo, hv]
    | some i =>
      simp only [buildIndexGo, hv]
      apply ih
      rcases List.mem_cons.mp hp with h | h
      · subst h
        rw [hnone] at hv
        exact Option.noConfusion hv
      · exact ⟨p, h, hnone⟩

theorem appendIdx_nonempty {U : Type} [DecidableEq U] :
    ∀ (acc : List (U × List Nat)) (u : U) (m : Nat),
      (∀ p ∈ acc, p.2 ≠ []) → ∀ p ∈ appendIdx acc u m, p.2 ≠ [] := by
  intro acc
  induction acc with
  | nil =>
    intro u m _ p hp
    simp only [appendIdx, List.mem_singleton] at hp
    subst hp
    simp
  | cons q rest ih =>
    intro u m hacc p hp
    obtain ⟨v, ms⟩ := q
    by_cases hv : v = u
    · simp only [appendIdx, if_pos hv, List.mem_cons] at hp
      rcases hp with hp | hp
      · subst hp; simp
      · exact hacc p (List.mem_cons_of_mem _ hp)
    · simp only [appendIdx, if_neg hv, List.mem_cons] at hp
      rcases hp with hp | hp
      · subst hp
        exact hacc (v, ms) (List.mem_cons_self _ _)
      · exact ih u m (fun q hq => hacc q (List.mem_cons_of_mem _ hq)) p hp

theorem buildIndexGo_nonempty {α U : Type} [DecidableEq α] [DecidableEq U] (mids : List α) :
    ∀ (rows : List (U × α)) (acc idx : List (U × List Nat)),
      (∀ p ∈ acc, p.2 ≠ []) → buildIndexGo mids acc rows = .ok idx →
      ∀ p ∈ idx, p.2 ≠ [] := by
  intro rows
  induction rows with
  | nil =>
    intro acc idx hacc hok
    simp only [buildIndexGo] at hok
    cases hok
    exact hacc
  | cons row rest ih =>
    intro acc idx hacc hok
    obtain ⟨u, m⟩ := row
    cases hv : vocabLookup mids m with
    | none => simp [buildIndexGo, hv] at hok
    | some i =>
      simp only [buildIndexGo, hv] at hok
      exact ih (appendIdx acc u i) idx (appendIdx_nonempty acc u i hacc) hok

theorem buildIndex_nonempty {α U : Type} [DecidableEq α] [DecidableEq U]
    {mids : List α} {rows : List (U × α)} {idx : List (U × List Nat)}
    (h : buildIndex mids rows = .ok idx) : ∀ p ∈ idx, p.2 ≠ [] :=
  buildIndexGo_nonempty mids rows [] idx (by simp) h

/-! ### Lemmas about masking and ranking -/

theorem maskScores_cons (scores : List ℚ) (t : Nat) (ts : List Nat) :
    maskScores scores (t :: ts) = maskScores (scores.set t (-1000000)) ts := rfl

theorem maskScores_length : ∀ (trainM : List Nat) (scores : List ℚ),
    (maskScores scores trainM).length = scores.length := by
  intro trainM
  induction trainM with
  | nil => intro scores; rfl
  | cons t ts ih =>
    intro scores
    rw [maskScores_cons, ih, List.length_set]

theorem maskScores_getD_of_not_mem : ∀ (trainM : List Nat) (scores : List ℚ) (m : Nat),
    m ∉ trainM → (maskScores scores trainM).getD m 0 = scores.getD m 0 := by
  intro trainM
  induction trainM with
  | nil => intro scores m _; rfl
  | cons t ts ih =>
    intro scores m hm
    rw [maskScores_cons, ih _ _ (fun h => hm (List.mem_cons_of_mem _ h))]
    have hne : t ≠ m := fun h => hm (h ▸ List.mem_cons_self _ _)
    simp [List.getD_eq_getElem?_getD, List.getElem?_set_ne hne]

theorem maskScores_getD_of_mem : ∀ (trainM : List Nat) (scores : List ℚ) (m : Nat),
    m ∈ trainM → m < scores.length →
    (maskScores scores trainM).getD m 0 = -1000000 := by
  intro trainM
  induction trainM with
  | nil => intro scores m hm _; simp at hm
  | cons t ts ih =>
    intro scores m hm hlt
    rw [maskScores_cons]
    by_cases hts : m ∈ ts
    · exact ih _ _ hts (by simpa using hlt)
    · have hmt : m = t := by
        rcases List.mem_cons.mp hm with h | h
        · exact h
        · exact absurd h hts
      subst hmt
      rw [maskScores_getD_of_not_mem ts _ _ hts]
      simp [List.getD_eq_getElem?_getD, List.getElem?_set_self hlt]

theorem argsortDesc_perm (s : List ℚ) : (argsortDesc s).Perm (List.range s.length) :=
  List.perm_insertionSort _ _

theorem argsortDesc_sorted (s : List ℚ) : (argsortDesc s).Pairwise (rankLE s) :=
  List.sorted_insertionSort _ _

theorem mem_argsortDesc {s : List ℚ} {i : Nat} (h : i ∈ argsortDesc s) : i < s.length := by
  have := (argsortDesc_perm s).mem_iff.mp h
  simpa using this

/-- Core of the masking invariant: a position whose score equals the sentinel
is never selected among the top `k` positions, provided at least `k` positions
score strictly above the sentinel. -/
theorem sentinel_not_mem_take {s : List ℚ} {k m : Nat}
    (hk : k ≤ (List.range s.length).countP fun i => decide ((-1000000 : ℚ) < s.getD i 0))
    (hm : s.getD m 0 = -1000000) :
    m ∉ (argsortDesc s).take k := by
  intro hmem
  set p : Nat → Bool := fun i => decide ((-1000000 : ℚ) < s.getD i 0) with hp
  set l : List Nat := argsortDesc s with hl
  have hperm : l.Perm (List.range s.length) := argsortDesc_perm s
  have hcount : k ≤ l.countP p := by rw [hperm.countP_eq p]; exact hk
  have hpm : p m = false := by
    show decide ((-1000000 : ℚ) < s.getD m 0) = false
    rw [decide_eq_false_iff_not, hm]
    exact lt_irrefl _
  have htl : (l.take k).length ≤ k := List.length_take_le _ _
  have h1 : (l.take k).countP p < (l.take k).length := by
    rcases Nat.lt_or_ge ((l.take k).countP p) ((l.take k).length) with h | h
    · exact h
    · have heq : (l.take k).countP p = (l.take k).length :=
        le_antisymm (List.countP_le_length _) h
      rw [List.countP_eq_length] at heq
      have := heq m hmem
      rw [hpm] at this
      exact absurd this (by simp)
  have hsplit : l.countP p = (l.take k).countP p + (l.drop k).countP p := by
    conv_lhs => rw [← List.take_append_drop k l]
    rw [List.countP_append]
  have hdrop : 0 < (l.drop k).countP p := by omega
  obtain ⟨x, hx, hpx⟩ := List.countP_pos_iff.mp hdrop
  have hsorted : l.Pairwise (rankLE s) := argsortDesc_sorted s
  have hrel : rankLE s m x := by
    have happ : (l.take k ++ l.drop k).Pairwise (rankLE s) := by
      rw [List.take_append_drop]
      exact hsorted
    exact (List.pairwise_append.mp happ).2.2 m hmem x hx
  have hxgt : (-1000000 : ℚ) < s.getD x 0 := by simpa [hp] using hpx
  rcases hrel with h | ⟨he, _⟩
  · rw [hm] at h
    exact absurd (h.trans hxgt) (lt_irrefl _)
  · rw [hm] at he
    rw [← he] at hxgt
    exact absurd hxgt (lt_irrefl _)

/-! ### Lemmas about the metric loop -/

theorem metricsGo_eq_map {α U : Type} [DecidableEq U] (userEmb : U → List ℚ)
    (movieEmb : α → List ℚ) (mids : List α)
    (trainIdx : Option (List (U × List Nat))) (k : Nat) :
    ∀ l : List (U × List Nat),
      metricsGo userEmb movieEmb mids trainIdx k l =
        (l.map fun q => (((q.2.countP fun x =>
            decide (x ∈ userTopK userEmb movieEmb mids trainIdx k q.1)) : ℕ) : ℚ) / (k : ℚ),
         l.map fun q => (((q.2.countP fun x =>
            decide (x ∈ userTopK userEmb movieEmb mids trainIdx k q.1)) : ℕ) : ℚ) /
              (q.2.length : ℚ)) := by
  intro l
  induction l with
  | nil => rfl
  | cons q rest ih =>
    obtain ⟨u, tm⟩ := q
    simp only [metricsGo, ih, List.map_cons]

theorem evaluate_ok_eq {α U : Type} [DecidableEq α] [DecidableEq U]
    (userEmb : U → List ℚ) (movieEmb : α → List ℚ)
    {test : List (U × α)} {mids : List α} {train : Option (List (U × α))} {k : Nat}
    {tio : Option (List (U × List Nat))} {ti : List (U × List Nat)}
    (htr : trainIndexOpt mids train = .ok tio)
    (hti : buildIndex mids test = .ok ti) :
    evaluate userEmb movieEmb test mids train k =
      .ok (npMean (metricsGo userEmb movieEmb mids tio k ti).1,
           npMean (metricsGo userEmb movieEmb mids tio k ti).2) := by
  simp only [evaluate, htr, hti]

theorem natCast_div_bounds {a b : ℕ} (h : a ≤ b) :
    0 ≤ ((a : ℚ) / (b : ℚ)) ∧ ((a : ℚ) / (b : ℚ)) ≤ 1 := by
  refine ⟨div_nonneg (by positivity) (by positivity), ?_⟩
  rcases Nat.eq_zero_or_pos b with hb | hb
  · subst hb
    have ha : a = 0 := Nat.le_zero.mp h
    subst ha
    norm_num
  · rw [div_le_one (by exact_mod_cast hb)]
    exact_mod_cast h

theorem countP_mem_le {β : Type} [DecidableEq β] {tm top : List β} (hnd : tm.Nodup) :
    (tm.countP fun x => decide (x ∈ top)) ≤ top.length := by
  rw [List.countP_eq_length_filter]
  have hsub : tm.filter (fun x => decide (x ∈ top)) ⊆ top := by
    intro x hx
    have := List.of_mem_filter hx
    simpa using this
  exact ((hnd.filter _).subperm hsub).length_le

theorem metricsGo_bounds {α U : Type} [DecidableEq U] (userEmb : U → List ℚ)
    (movieEmb : α → List ℚ) (mids : List α)
    (trainIdx : Option (List (U × List Nat))) (k : Nat) :
    ∀ l : List (U × List Nat), (∀ p ∈ l, p.2 ≠ [] ∧ p.2.Nodup) →
      (∀ q ∈ (metricsGo userEmb movieEmb mids trainIdx k l).1, 0 ≤ q ∧ q ≤ 1) ∧
      (∀ q ∈ (metricsGo userEmb movieEmb mids trainIdx k l).2, 0 ≤ q ∧ q ≤ 1) := by
  intro l
  induction l with
  | nil =>
    intro _
    constructor <;> intro q hq <;> simp [metricsGo] at hq
  | cons p rest ih =>
    intro h
    obtain ⟨u, tm⟩ := p
    obtain ⟨hne, hnd⟩ := h (u, tm) (List.mem_cons_self _ _)
    obtain ⟨ihp, ihr⟩ := ih fun q hq => h q (List.mem_cons_of_mem _ hq)
    have hhits_k : (tm.countP fun x =>
        decide (x ∈ userTopK userEmb movieEmb mids trainIdx k u)) ≤ k := by
      refine le_trans (countP_mem_le hnd) ?_
      exact List.length_take_le _ _
    have hhits_len : (tm.countP fun x =>
        decide (x ∈ userTopK userEmb movieEmb mids trainIdx k u)) ≤ tm.length :=
      List.countP_le_length _
    constructor
    · intro q hq
      simp only [metricsGo, List.mem_cons] at hq
      rcases hq with hq | hq
      · subst hq
        exact natCast_div_bounds hhits_k
      · exact ihp q hq
    · intro q hq
      simp only [metricsGo, List.mem_cons] at hq
      rcases hq with hq | hq
      · subst hq
        exact natCast_div_bounds hhits_len
      · exact ihr q hq

theorem npMean_bounds {l : List ℚ} (hne : l ≠ []) (h : ∀ q ∈ l, 0 ≤ q ∧ q ≤ 1) :
    ∃ m, npMean l = some m ∧ 0 ≤ m ∧ m ≤ 1 := by
  refine ⟨l.sum / (l.length : ℚ), ?_, ?_, ?_⟩
  · simp [npMean, hne]
  · exact div_nonneg (List.sum_nonneg fun x hx => (h x hx).1) (by positivity)
  · have hlen : 0 < (l.length : ℚ) := by
      have : 0 < l.length := List.length_pos.mpr hne
      exact_mod_cast this
    rw [div_le_one hlen]
    have := List.sum_le_card_nsmul l 1 fun x hx => (h x hx).2
    simpa [nsmul_eq_mul] using this

/-! ### Claims about `evaluate` -/

/-- C1, counterexample: with catalog `[7]`, train `[(0, 7)]`, test `[(0, 7)]`
and `k = 1`, user 0's train movie (dense index 0) IS selected among the top-K
after masking.  Masking writes the `-1e6` sentinel but does not remove the
position from the ranking, and with no other candidate the train item still
ranks first. -/
theorem C1_counterexample :
    buildIndex ([7] : List ℕ) ([((0 : ℕ), (7 : ℕ))]) = .ok [(0, [0])] ∧
    0 ∈ lookupOr [((0 : ℕ), [0])] 0 ∧
    0 ∈ userTopK (fun _ : ℕ => [(1 : ℚ)]) (fun _ : ℕ => [(1 : ℚ)])
        ([7] : List ℕ) (some [(0, [0])]) 1 0 :=
  ⟨rfl, by decide, by decide⟩

/-- C1, amended: if a train dataset is supplied then no item index of a
user's train set is selected among that user's top-K after masking, PROVIDED
at least `k` positions of the user's masked score vector lie strictly above
the `-1e6` sentinel (the sentinel only demotes train items, so they resurface
when fewer than `k` candidates outscore it). -/
theorem C1_spec {α U : Type} [DecidableEq α] [DecidableEq U]
    (userEmb : U → List ℚ) (movieEmb : α → List ℚ)
    {mids : List α} {tr : List (U × α)} {tIdx : List (U × List Nat)} {k : Nat}
    (htr : buildIndex mids tr = .ok tIdx) (u : U)
    (hk : k ≤ (List.range (maskScores ((mids.map movieEmb).map (dot (userEmb u)))
          (lookupOr tIdx u)).length).countP
        fun i => decide ((-1000000 : ℚ) <
          (maskScores ((mids.map movieEmb).map (dot (userEmb u)))
            (lookupOr tIdx u)).getD i 0)) :
    ∀ m ∈ lookupOr tIdx u, m ∉ userTopK userEmb movieEmb mids (some tIdx) k u := by
  intro m hm hmem
  have hmem' : m ∈ (argsortDesc (maskScores ((mids.map movieEmb).map (dot (userEmb u)))
      (lookupOr tIdx u))).take k := by
    simpa [userTopK] using hmem
  have hmlt : m < (maskScores ((mids.map movieEmb).map (dot (userEmb u)))
      (lookupOr tIdx u)).length :=
    mem_argsortDesc (List.mem_of_mem_take hmem')
  rw [maskScores_length] at hmlt
  have hsent : (maskScores ((mids.map movieEmb).map (dot (userEmb u)))
      (lookupOr tIdx u)).getD m 0 = -1000000 :=
    maskScores_getD_of_mem _ _ _ hm hmlt
  exact sentinel_not_mem_take hk hsent hmem'

/-- C1, witness: catalog `[7, 8]`, train `[(0, 7)]`, `k = 1`; movie 8 (score
0) outscores the sentinel, so the masked train index 0 stays out of the
top-1. -/
theorem C1_witness :
    buildIndex ([7, 8] : List ℕ) ([((0 : ℕ), (7 : ℕ))]) = .ok [(0, [0])] ∧
    0 ∉ userTopK (fun _ : ℕ => ([] : List ℚ)) (fun _ : ℕ => ([] : List ℚ))
        ([7, 8] : List ℕ) (some [(0, [0])]) 1 0 :=
  ⟨rfl, C1_spec (fun _ : ℕ => ([] : List ℚ)) (fun _ : ℕ => ([] : List ℚ))
      (show buildIndex ([7, 8] : List ℕ) ([((0 : ℕ), (7 : ℕ))]) =
        Except.ok [((0 : ℕ), [0])] from rfl)
      0 (by decide) 0 (by decide)⟩

/-- C2, counterexample: a duplicated test interaction makes the per-user hit
count exceed `k`.  With test rows `[(0, 7), (0, 7)]`, catalog `[7]` and
`k = 1`, the hit 7 is counted once per test row, so precision is `2/1 = 2`,
and the returned `precision_at_k` is 2, outside `[0, 1]`. -/
theorem C2_counterexample :
    evaluate (fun _ : ℕ => ([] : List ℚ)) (fun _ : ℕ => ([] : List ℚ))
        [((0 : ℕ), (7 : ℕ)), (0, 7)] [7] none 1 = .ok (some 2, some 1) ∧
    ¬ ((2 : ℚ) ≤ 1) := by
  constructor
  · rw [evaluate_ok_eq _ _
      (show trainIndexOpt ([7] : List ℕ) (none : Option (List (ℕ × ℕ))) =
        Except.ok none from rfl)
      (show buildIndex ([7] : List ℕ) [((0 : ℕ), (7 : ℕ)), (0, 7)] =
        Except.ok [((0 : ℕ), [0, 0])] from rfl)]
    norm_num [metricsGo, userTopK, argsortDesc, maskScores, dot, npMean,
      List.insertionSort, List.orderedInsert]
  · norm_num

/-- C2, amended: provided the test index is nonempty (an empty one makes both
returned means `np.mean([]) = NaN`) and no user's test items repeat (repeated
test rows are each counted against the same `k` slots), every per-user
precision and recall lies in `[0, 1]`, and `evaluate` returns finite
`precision_at_k` and `recall_at_k` in `[0, 1]`. -/
theorem C2_spec {α U : Type} [DecidableEq α] [DecidableEq U]
    (userEmb : U → List ℚ) (movieEmb : α → List ℚ)
    {test : List (U × α)} {mids : List α} {train : Option (List (U × α))} {k : Nat}
    {tio : Option (List (U × List Nat))} {ti : List (U × List Nat)}
    (htr : trainIndexOpt mids train = .ok tio)
    (hti : buildIndex mids test = .ok ti)
    (hne : ti ≠ [])
    (hnd : ∀ p ∈ ti, p.2.Nodup) :
    (∀ q ∈ (metricsGo userEmb movieEmb mids tio k ti).1, 0 ≤ q ∧ q ≤ 1) ∧
    (∀ q ∈ (metricsGo userEmb movieEmb mids tio k ti).2, 0 ≤ q ∧ q ≤ 1) ∧
    ∃ p r, evaluate userEmb movieEmb test mids train k = .ok (some p, some r) ∧
      0 ≤ p ∧ p ≤ 1 ∧ 0 ≤ r ∧ r ≤ 1 := by
  have hprop : ∀ p ∈ ti, p.2 ≠ [] ∧ p.2.Nodup :=
    fun p hp => ⟨buildIndex_nonempty hti p hp, hnd p hp⟩
  obtain ⟨hbp, hbr⟩ := metricsGo_bounds userEmb movieEmb mids tio k ti hprop
  have hlnp : (metricsGo userEmb movieEmb mids tio k ti).1 ≠ [] := by
    cases ti with
    | nil => exact absurd rfl hne
    | cons q rest =>
      obtain ⟨u, tm⟩ := q
      simp [metricsGo]
  have hlnr : (metricsGo userEmb movieEmb mids tio k ti).2 ≠ [] := by
    cases ti with
    | nil => exact absurd rfl hne
    | cons q rest =>
      obtain ⟨u, tm⟩ := q
      simp [metricsGo]
  obtain ⟨mp, hmp, h0p, h1p⟩ := npMean_bounds hlnp hbp
  obtain ⟨mr, hmr, h0r, h1r⟩ := npMean_bounds hlnr hbr
  refine ⟨hbp, hbr, mp, mr, ?_, h0p, h1p, h0r, h1r⟩
  rw [evaluate_ok_eq userEmb movieEmb htr hti, hmp, hmr]

/-- C2, witness: one test row `(0, 7)` over catalog `[7]` with `k = 1`
satisfies the amended hypotheses, and the bounds hold. -/
theorem C2_witness :
    (∀ q ∈ (metricsGo (fun _ : ℕ => [(1 : ℚ)]) (fun _ : ℕ => [(1 : ℚ)]) [7]
        none 1 [((0 : ℕ), [0])]).1, 0 ≤ q ∧ q ≤ 1) ∧
    (∀ q ∈ (metricsGo (fun _ : ℕ => [(1 : ℚ)]) (fun _ : ℕ => [(1 : ℚ)]) [7]
        none 1 [((0 : ℕ), [0])]).2, 0 ≤ q ∧ q ≤ 1) ∧
    ∃ p r, evaluate (fun _ : ℕ => [(1 : ℚ)]) (fun _ : ℕ => [(1 : ℚ)])
        [((0 : ℕ), (7 : ℕ))] [7] none 1 = .ok (some p, some r) ∧
      0 ≤ p ∧ p ≤ 1 ∧ 0 ≤ r ∧ r ≤ 1 :=
  C2_spec (fun _ : ℕ => [(1 : ℚ)]) (fun _ : ℕ => [(1 : ℚ)])
    rfl rfl (by decide) (by decide)

/-- C7: for every user of the test index, `evaluate` counts as `hits` the
test item indices lying in the user's selected top-K, scores
`precision = hits / k` and `recall = hits / (number of test items)`, and
returns the arithmetic means (`npMean`) of the per-user values over all users
of the test index, in both components. -/
theorem C7_spec {α U : Type} [DecidableEq α] [DecidableEq U]
    (userEmb : U → List ℚ) (movieEmb : α → List ℚ)
    {test : List (U × α)} {mids : List α} {train : Option (List (U × α))} {k : Nat}
    {tio : Option (List (U × List Nat))} {ti : List (U × List Nat)}
    (htr : trainIndexOpt mids train = .ok tio)
    (hti : buildIndex mids test = .ok ti) :
    evaluate userEmb movieEmb test mids train k =
      .ok (npMean (ti.map fun q => (((q.2.countP fun x =>
              decide (x ∈ userTopK userEmb movieEmb mids tio k q.1)) : ℕ) : ℚ) / (k : ℚ)),
           npMean (ti.map fun q => (((q.2.countP fun x =>
              decide (x ∈ userTopK userEmb movieEmb mids tio k q.1)) : ℕ) : ℚ) /
                (q.2.length : ℚ))) := by
  rw [evaluate_ok_eq userEmb movieEmb htr hti, metricsGo_eq_map]

/-- C7, witness: the formula instantiated on one concrete test row. -/
theorem C7_witness :
    evaluate (fun _ : ℕ => [(1 : ℚ)]) (fun _ : ℕ => [(1 : ℚ)])
        [((0 : ℕ), (7 : ℕ))] [7] none 1 =
      .ok (npMean (([((0 : ℕ), [0])] : List (ℕ × List ℕ)).map fun q =>
              (((q.2.countP fun x => decide (x ∈ userTopK (fun _ : ℕ => [(1 : ℚ)])
                (fun _ : ℕ => [(1 : ℚ)]) [7] none 1 q.1)) : ℕ) : ℚ) / (1 : ℕ)),
           npMean (([((0 : ℕ), [0])] : List (ℕ × List ℕ)).map fun q =>
              (((q.2.countP fun x => decide (x ∈ userTopK (fun _ : ℕ => [(1 : ℚ)])
                (fun _ : ℕ => [(1 : ℚ)]) [7] none 1 q.1)) : ℕ) : ℚ) /
                  (q.2.length : ℚ))) :=
  C7_spec (fun _ : ℕ => [(1 : ℚ)]) (fun _ : ℕ => [(1 : ℚ)]) rfl rfl

/-- C8: an interaction (train or test) whose movie id is absent from the
catalog-built vocabulary makes `evaluate` fail with the `KeyError`-class
error. -/
theorem C8_spec {α U : Type} [DecidableEq α] [DecidableEq U]
    (userEmb : U → List ℚ) (movieEmb : α → List ℚ)
    {test : List (U × α)} {mids : List α} {train : Option (List (U × α))} {k : Nat}
    (h : (∃ p ∈ test, p.2 ∉ mids) ∨
      ∃ tr, train = some tr ∧ ∃ p ∈ tr, p.2 ∉ mids) :
    evaluate userEmb movieEmb test mids train k = .error () := by
  rcases h with ⟨p, hp, hmiss⟩ | ⟨tr, htr, p, hp, hmiss⟩
  · cases hv : trainIndexOpt mids train with
    | error e =>
      cases e
      simp [evaluate, hv]
    | ok tio =>
      have herr : buildIndexGo mids [] test = .error () :=
        buildIndexGo_error mids test []
          ⟨p, hp, (vocabLookup_eq_none_iff mids p.2).mpr hmiss⟩
      simp [evaluate, hv, buildIndex, herr]
  · subst htr
    have herr : buildIndex mids tr = .error () :=
      buildIndexGo_error mids tr []
        ⟨p, hp, (vocabLookup_eq_none_iff mids p.2).mpr hmiss⟩
    have htio : trainIndexOpt mids (some tr) = .error () := by
      simp [trainIndexOpt, herr]
    simp [evaluate, htio]

/-- C8, witness: test row `(0, 9)` with movie 9 outside catalog `[7]`. -/
theorem C8_witness :
    evaluate (fun _ : ℕ => [(1 : ℚ)]) (fun _ : ℕ => [(1 : ℚ)])
        [((0 : ℕ), (9 : ℕ))] [7] none 1 = .error () :=
  C8_spec (fun _ : ℕ => [(1 : ℚ)]) (fun _ : ℕ => [(1 : ℚ)])
    (Or.inl ⟨((0 : ℕ), (9 : ℕ)), by decide, by decide⟩)

/-- C9: over a catalog of distinct identifiers the vocabulary is a bijection
onto `[0, N)`: the identifier at position `d` encodes to `d`, and every
catalog identifier encodes to an index that decodes (through the catalog
array) back to itself. -/
theorem C9_spec {α : Type} [DecidableEq α] {mids : List α} (h : mids.Nodup) :
    (∀ (d : Nat) (hd : d < mids.length),
        vocabLookup mids (mids.get ⟨d, hd⟩) = some d) ∧
    (∀ x ∈ mids, ∃ (d : Nat) (hd : d < mids.length),
        vocabLookup mids x = some d ∧ mids.get ⟨d, hd⟩ = x) := by
  constructor
  · intro d hd
    simpa using vocabLookup_getElem_of_nodup h d hd
  · intro x hx
    obtain ⟨d, hd, hxd⟩ := List.mem_iff_getElem.mp hx
    refine ⟨d, hd, ?_, by simpa using hxd⟩
    have := vocabLookup_getElem_of_nodup h d hd
    rw [hxd] at this
    exact this

/-- C9, witness: catalog `[3, 5, 9]` round-trips every identifier. -/
theorem C9_witness :
    (∀ (d : Nat) (hd : d < ([3, 5, 9] : List ℕ).length),
        vocabLookup [3, 5, 9] (([3, 5, 9] : List ℕ).get ⟨d, hd⟩) = some d) ∧
    (∀ x ∈ ([3, 5, 9] : List ℕ), ∃ (d : Nat) (hd : d < ([3, 5, 9] : List ℕ).length),
        vocabLookup [3, 5, 9] x = some d ∧ ([3, 5, 9] : List ℕ).get ⟨d, hd⟩ = x) :=
  C9_spec (by decide)

/-- C10: every user of the test index owns a nonempty sequence of test item
indices (entries are only ever created by appending an index), so the recall
denominator `len(test_movies)` is never the rational zero. -/
theorem C10_spec {α U : Type} [DecidableEq α] [DecidableEq U]
    {mids : List α} {rows : List (U × α)} {idx : List (U × List Nat)}
    (h : buildIndex mids rows = .ok idx) :
    ∀ p ∈ idx, p.2 ≠ [] ∧ ((p.2.length : ℚ) ≠ 0) := by
  intro p hp
  have hne := buildIndex_nonempty h p hp
  refine ⟨hne, ?_⟩
  have : 0 < p.2.length := List.length_pos.mpr hne
  exact_mod_cast Nat.pos_iff_ne_zero.mp this

/-- C10, witness: the index built from two test rows for the same user. -/
theorem C10_witness :
    ([0, 0] : List ℕ) ≠ [] ∧ ((([0, 0] : List ℕ).length : ℚ) ≠ 0) :=
  @C10_spec ℕ ℕ _ _ [7] [((0 : ℕ), (7 : ℕ)), (0, 7)] [((0 : ℕ), [0, 0])]
    (show buildIndex ([7] : List ℕ) [((0 : ℕ), (7 : ℕ)), (0, 7)] =
      Except.ok [((0 : ℕ), [0, 0])] from rfl)
    ((0 : ℕ), [0, 0]) (by decide)

/-! ### Lemmas about the listwise sampler -/

theorem sampleList_ok {α : Type} [Inhabited α] {negs mids : List α} {rats : List ℚ}
    {np nn : Nat} {r r' : Rng} {ids : List α} {qs : List ℚ}
    (h : sampleList negs mids rats np nn r = .ok ((ids, qs), r')) :
    ∃ idxs r₁ negIds,
      sample r (List.range mids.length) np = .ok (idxs, r₁) ∧
      sample r₁ negs nn = .ok (negIds, r') ∧
      ids = idxs.map (fun i => mids.getD i default) ++ negIds ∧
      qs = idxs.map (fun i => rats.getD i 0) ++ List.replicate nn 0 := by
  unfold sampleList at h
  split at h
  · exact absurd h (by simp)
  · rename_i idxs r₁ h1
    split at h
    · exact absurd h (by simp)
    · rename_i negIds r₂ h2
      simp only [Except.ok.injEq, Prod.mk.injEq] at h
      obtain ⟨⟨hids, hqs⟩, hr⟩ := h
      subst hr
      exact ⟨idxs, r₁, negIds, h1, h2, hids.symm, hqs.symm⟩

theorem sampleList_error {α : Type} [Inhabited α] {negs mids : List α} {rats : List ℚ}
    {np nn : Nat} (r : Rng) (h : mids.length < np ∨ negs.length < nn) :
    sampleList negs mids rats np nn r = .error () := by
  rcases h with h | h
  · unfold sampleList
    rw [sample_error (by simpa using h)]
  · unfold sampleList
    cases h1 : sample r (List.range mids.length) np with
    | error e => cases e; rfl
    | ok pr =>
      obtain ⟨idxs, r₁⟩ := pr
      dsimp only
      rw [sample_error h]

theorem sampleLists_error {α : Type} [Inhabited α] {negs mids : List α} (rats : List ℚ)
    {np nn : Nat} (h : mids.length < np ∨ negs.length < nn) :
    ∀ (cnt : Nat), 1 ≤ cnt → ∀ (r : Rng),
      sampleLists negs mids rats np nn cnt r = .error () := by
  intro cnt hc r
  match cnt, hc with
  | c + 1, _ =>
    simp only [sampleLists]
    rw [sampleList_error r h]

theorem sampleLists_ok_mem {α : Type} [Inhabited α] {negs mids : List α} {rats : List ℚ}
    {np nn : Nat} :
    ∀ (cnt : Nat) (r : Rng) {exs : List (List α × List ℚ)} {r' : Rng},
      sampleLists negs mids rats np nn cnt r = .ok (exs, r') →
      ∀ ex ∈ exs, ∃ r₀ r₁, sampleList negs mids rats np nn r₀ = .ok (ex, r₁) := by
  intro cnt
  induction cnt with
  | zero =>
    intro r exs r' h ex hex
    simp only [sampleLists, Except.ok.injEq, Prod.mk.injEq] at h
    obtain ⟨he, _⟩ := h
    subst he
    simp at hex
  | succ c ih =>
    intro r exs r' h ex hex
    simp only [sampleLists] at h
    split at h
    · exact absurd h (by simp)
    · rename_i ex₀ r₁ h1
      split at h
      · exact absurd h (by simp)
      · rename_i rest r₂ h2
        simp only [Except.ok.injEq, Prod.mk.injEq] at h
        obtain ⟨he, hr⟩ := h
        subst he
        subst hr
        rcases List.mem_cons.mp hex with hx | hx
        · subst hx
          exact ⟨r, r₁, h1⟩
        · exact ih r₁ h2 ex hx

theorem listwiseGo_error {α U : Type} [DecidableEq α] [Inhabited α]
    (setOrder : List α → List α) (vocabSet : List α) {np nn tc sc : Nat}
    (htc : 1 ≤ tc) :
    ∀ (entries : List (U × List α × List ℚ)) (r : Rng),
      (∃ p ∈ entries, p.2.1.length < np ∨
        (setOrder (vocabSet.filter fun m => decide (m ∉ p.2.1))).length < nn) →
      listwiseGo setOrder vocabSet np nn tc sc entries r = .error () := by
  intro entries
  induction entries with
  | nil =>
    rintro r ⟨p, hp, _⟩
    simp at hp
  | cons e rest ih =>
    rintro r ⟨p, hp, hins⟩
    obtain ⟨u, feats⟩ := e
    rcases List.mem_cons.mp hp with hpe | hpe
    · subst hpe
      dsimp only at hins
      have h1 := sampleLists_error feats.2 hins tc htc r
      simp only [decide_not] at h1
      simp [listwiseGo, h1]
    · cases h1 : sampleLists (setOrder (vocabSet.filter fun m => decide (m ∉ feats.1)))
          feats.1 feats.2 np nn tc r with
      | error e1 =>
        cases e1
        simp only [decide_not] at h1
        simp [listwiseGo, h1]
      | ok pr1 =>
        obtain ⟨tl, r₁⟩ := pr1
        cases h2 : sampleLists (setOrder (vocabSet.filter fun m => decide (m ∉ feats.1)))
            feats.1 feats.2 np nn sc r₁ with
        | error e2 =>
          cases e2
          simp only [decide_not] at h1 h2
          simp [listwiseGo, h1, h2]
        | ok pr2 =>
          obtain ⟨sl, r₂⟩ := pr2
          have h3 := ih r₂ ⟨p, hpe, hins⟩
          simp only [decide_not] at h1 h2
          simp [listwiseGo, h1, h2, h3]

theorem listwiseGo_ok_mem {α U : Type} [DecidableEq α] [Inhabited α]
    (setOrder : List α → List α) (vocabSet : List α) {np nn tc sc : Nat} :
    ∀ (entries : List (U × List α × List ℚ)) (r : Rng)
      {tr te : List (U × List α × List ℚ)} {r' : Rng},
      listwiseGo setOrder vocabSet np nn tc sc entries r = .ok (tr, te, r') →
      ∀ x ∈ tr ++ te, ∃ feats, (x.1, feats) ∈ entries ∧
        ∃ r₀ r₁, sampleList (setOrder (vocabSet.filter fun m => decide (m ∉ feats.1)))
          feats.1 feats.2 np nn r₀ = .ok ((x.2.1, x.2.2), r₁) := by
  intro entries
  induction entries with
  | nil =>
    intro r tr te r' h x hx
    simp only [listwiseGo, Except.ok.injEq, Prod.mk.injEq] at h
    obtain ⟨h1, h2, _⟩ := h
    subst h1
    subst h2
    simp at hx
  | cons e rest ih =>
    intro r tr te r' h x hx
    obtain ⟨u, feats⟩ := e
    simp only [listwiseGo] at h
    split at h
    · exact absurd h (by simp)
    · rename_i tl r₁ h1
      split at h
      · exact absurd h (by simp)
      · rename_i sl r₂ h2
        split at h
        · exact absurd h (by simp)
        · rename_i trRest teRest r₃ h3
          simp only [Except.ok.injEq, Prod.mk.injEq] at h
          obtain ⟨htr, hte, _⟩ := h
          subst htr
          subst hte
          rcases List.mem_append.mp hx with hx | hx
          · rcases List.mem_append.mp hx with hx | hx
            · obtain ⟨pr, hpr, hxe⟩ := List.mem_map.mp hx
              subst hxe
              obtain ⟨r₀, r₁', hs⟩ := sampleLists_ok_mem tc r h1 pr hpr
              exact ⟨feats, List.mem_cons_self _ _, r₀, r₁', hs⟩
            · obtain ⟨feats', hmem, hrest⟩ :=
                ih r₂ h3 x (List.mem_append.mpr (Or.inl hx))
              exact ⟨feats', List.mem_cons_of_mem _ hmem, hrest⟩
          · rcases List.mem_append.mp hx with hx | hx
            · obtain ⟨pr, hpr, hxe⟩ := List.mem_map.mp hx
              subst hxe
              obtain ⟨r₀, r₁', hs⟩ := sampleLists_ok_mem sc r₁ h2 pr hpr
              exact ⟨feats, List.mem_cons_self _ _, r₀, r₁', hs⟩
            · obtain ⟨feats', hmem, hrest⟩ :=
                ih r₂ h3 x (List.mem_append.mpr (Or.inr hx))
              exact ⟨feats', List.mem_cons_of_mem _ hmem, hrest⟩

theorem movielens_to_listwise_ok {α U : Type} [DecidableEq α] [DecidableEq U] [Inhabited α]
    {setOrder : List α → List α} {ratings : List (U × α × ℚ)} {movieIds : List α}
    {tc sc np nn : Nat} {r : Rng} {tr te : List (U × List α × List ℚ)}
    (h : movielens_to_listwise setOrder ratings movieIds tc sc np nn r = .ok (tr, te)) :
    ∃ r', listwiseGo setOrder movieIds.dedup np nn tc sc (groupRatings ratings) r =
      .ok (tr, te, r') := by
  unfold movielens_to_listwise at h
  split at h
  · exact absurd h (by simp)
  · rename_i tr' te' r'' heq
    simp only [Except.ok.injEq, Prod.mk.injEq] at h
    obtain ⟨h1, h2⟩ := h
    subst h1
    subst h2
    exact ⟨r'', heq⟩

theorem sampleList_ok_shape {α : Type} [DecidableEq α] [Inhabited α]
    {negs mids : List α} {rats : List ℚ} {np nn : Nat} {r r' : Rng}
    {ids : List α} {qs : List ℚ}
    (hlen : mids.length = rats.length)
    (h : sampleList negs mids rats np nn r = .ok ((ids, qs), r')) :
    ids.length = np + nn ∧
    qs.length = np + nn ∧
    (ids.take np).zip (qs.take np) ⊆ mids.zip rats ∧
    ids.take np ⊆ mids ∧
    ids.drop np ⊆ negs ∧
    (ids.drop np).length = nn ∧
    qs.drop np = List.replicate nn 0 ∧
    (mids.Nodup → negs.Nodup → (∀ m ∈ negs, m ∉ mids) → ids.Nodup) := by
  obtain ⟨idxs, r₁, negIds, h1, h2, hids, hqs⟩ := sampleList_ok h
  have hidxlen : idxs.length = np := sample_ok_length h1
  have hidxsub : ∀ i ∈ idxs, i < mids.length := by
    intro i hi
    have := sample_ok_subset h1 hi
    simpa using this
  have hidxnd : idxs.Nodup := sample_ok_nodup (List.nodup_range _) h1
  have hneglen : negIds.length = nn := sample_ok_length h2
  have hnegsub : negIds ⊆ negs := sample_ok_subset h2
  have hposlen : (idxs.map fun i => mids.getD i default).length = np := by
    simpa using hidxlen
  have hposlen' : (idxs.map fun i => rats.getD i 0).length = np := by
    simpa using hidxlen
  have htake : ids.take np = idxs.map fun i => mids.getD i default := by
    rw [hids, List.take_left' hposlen]
  have htakeq : qs.take np = idxs.map fun i => rats.getD i 0 := by
    rw [hqs, List.take_left' hposlen']
  have hdrop : ids.drop np = negIds := by
    rw [hids, List.drop_left' hposlen]
  have hdropq : qs.drop np = List.replicate nn 0 := by
    rw [hqs, List.drop_left' hposlen']
  refine ⟨?_, ?_, ?_, ?_, ?_, ?_, hdropq, ?_⟩
  · rw [hids, List.length_append, hposlen, hneglen]
  · rw [hqs, List.length_append, hposlen', List.length_replicate]
  · rw [htake, htakeq, List.zip_map']
    intro pr hpr
    obtain ⟨i, hi, hpe⟩ := List.mem_map.mp hpr
    subst hpe
    have hilt : i < mids.length := hidxsub i hi
    have hilt' : i < rats.length := hlen ▸ hilt
    rw [List.getD_eq_getElem _ _ hilt, List.getD_eq_getElem _ _ hilt']
    rw [List.mem_iff_getElem]
    refine ⟨i, ?_, ?_⟩
    · rw [List.length_zip]
      omega
    · rw [List.getElem_zip]
  · rw [htake]
    intro x hx
    obtain ⟨i, hi, hpe⟩ := List.mem_map.mp hx
    subst hpe
    have hilt : i < mids.length := hidxsub i hi
    rw [List.getD_eq_getElem _ _ hilt]
    exact List.getElem_mem hilt
  · rw [hdrop]
    exact hnegsub
  · rw [hdrop]
    exact hneglen
  · intro hmnd hnnd hdisj
    rw [hids]
    apply List.Nodup.append
    · refine List.Nodup.map_on ?_ hidxnd
      intro i hi j hj hij
      have hi' := hidxsub i hi
      have hj' := hidxsub j hj
      rw [List.getD_eq_getElem _ _ hi', List.getD_eq_getElem _ _ hj'] at hij
      exact hmnd.getElem_inj_iff.mp hij
    · exact sample_ok_nodup hnnd h2
    · intro a ha hb
      obtain ⟨i, hi, hpe⟩ := List.mem_map.mp ha
      subst hpe
      have hilt : i < mids.length := hidxsub i hi
      rw [List.getD_eq_getElem _ _ hilt] at hb
      exact hdisj _ (hnegsub hb) (List.getElem_mem hilt)

theorem appendPair_featlen {α U : Type} [DecidableEq U] :
    ∀ (acc : List (U × List α × List ℚ)) (u : U) (m : α) (q : ℚ),
      (∀ p ∈ acc, p.2.1.length = p.2.2.length) →
      ∀ p ∈ appendPair acc u m q, p.2.1.length = p.2.2.length := by
  intro acc
  induction acc with
  | nil =>
    intro u m q _ p hp
    simp only [appendPair, List.mem_singleton] at hp
    subst hp
    simp
  | cons e rest ih =>
    intro u m q hacc p hp
    obtain ⟨v, ls⟩ := e
    by_cases hv : v = u
    · simp only [appendPair, if_pos hv, List.mem_cons] at hp
      rcases hp with hp | hp
      · subst hp
        have := hacc (v, ls) (List.mem_cons_self _ _)
        simp only at this ⊢
        simp [this]
      · exact hacc p (List.mem_cons_of_mem _ hp)
    · simp only [appendPair, if_neg hv, List.mem_cons] at hp
      rcases hp with hp | hp
      · subst hp
        exact hacc (v, ls) (List.mem_cons_self _ _)
      · exact ih u m q (fun x hx => hacc x (List.mem_cons_of_mem _ hx)) p hp

theorem groupRatings_featlen {α U : Type} [DecidableEq U] (rows : List (U × α × ℚ)) :
    ∀ p ∈ groupRatings rows, p.2.1.length = p.2.2.length := by
  suffices hgen : ∀ (rows' : List (U × α × ℚ)) (acc : List (U × List α × List ℚ)),
      (∀ p ∈ acc, p.2.1.length = p.2.2.length) →
      ∀ p ∈ rows'.foldl (fun acc r => appendPair acc r.1 r.2.1 r.2.2) acc,
        p.2.1.length = p.2.2.length by
    exact hgen rows [] (by simp)
  intro rows'
  induction rows' with
  | nil =>
    intro acc hacc
    simpa using hacc
  | cons row rest ih =>
    intro acc hacc
    simp only [List.foldl_cons]
    exact ih _ (appendPair_featlen acc row.1 row.2.1 row.2.2 hacc)

theorem negs_props {α : Type} [DecidableEq α] (setOrder : List α → List α)
    (hso : ∀ l, (setOrder l).Perm l) (movieIds : List α) (rated : List α) :
    (∀ m ∈ setOrder (movieIds.dedup.filter fun m => decide (m ∉ rated)),
      m ∈ movieIds ∧ m ∉ rated) ∧
    (setOrder (movieIds.dedup.filter fun m => decide (m ∉ rated))).Nodup := by
  constructor
  · intro m hm
    have hm' := (hso _).mem_iff.mp hm
    have h1 := List.mem_of_mem_filter hm'
    have h2 := List.of_mem_filter hm'
    exact ⟨List.mem_dedup.mp h1, by simpa using h2⟩
  · exact ((hso _).nodup_iff).mpr ((List.nodup_dedup movieIds).filter _)

/-! ### Claims about the listwise sampler -/

/-- C3, counterexample: a user who rated the same movie twice can receive a
List Example with a duplicated identifier: positions, not identifiers, are
sampled without replacement, so duplicated interactions yield duplicated
ids. -/
theorem C3_counterexample :
    movielens_to_listwise id ([((0 : ℕ), (5 : ℕ), (1 : ℚ)), (0, 5, 2)]) [5]
        1 0 2 0 ⟨0⟩ = .ok ([(0, ([5, 5], [1, 2]))], []) ∧
    ¬ ([5, 5] : List ℕ).Nodup :=
  ⟨rfl, by decide⟩

/-- C3, amended: provided each user's observed interactions carry distinct
movie ids (and the set enumeration is genuinely an enumeration, i.e. a
permutation), every produced List Example has exactly `num_pos + num_neg`
entries, no duplicate ids, and consists of `num_pos` sampled positives (drawn
from the user's rated ids) followed by `num_neg` sampled negatives (ids the
user never rated). -/
theorem C3_spec {α U : Type} [DecidableEq α] [DecidableEq U] [Inhabited α]
    {setOrder : List α → List α} {ratings : List (U × α × ℚ)} {movieIds : List α}
    {tc sc np nn : Nat} {r : Rng} {tr te : List (U × List α × List ℚ)}
    (hso : ∀ l, (setOrder l).Perm l)
    (hnd : ∀ p ∈ groupRatings ratings, p.2.1.Nodup)
    (h : movielens_to_listwise setOrder ratings movieIds tc sc np nn r = .ok (tr, te)) :
    ∀ x ∈ tr ++ te, x.2.1.length = np + nn ∧ x.2.1.Nodup ∧
      ∃ feats, (x.1, feats) ∈ groupRatings ratings ∧
        x.2.1.take np ⊆ feats.1 ∧ (x.2.1.drop np).length = nn ∧
        ∀ m ∈ x.2.1.drop np, m ∉ feats.1 := by
  obtain ⟨r', hgo⟩ := movielens_to_listwise_ok h
  intro x hx
  obtain ⟨feats, hmem, r₀, r₁, hs⟩ :=
    listwiseGo_ok_mem setOrder movieIds.dedup _ r hgo x hx
  have hflen := groupRatings_featlen ratings _ hmem
  dsimp only at hflen
  obtain ⟨hnegmem, hnegnd⟩ := negs_props setOrder hso movieIds feats.1
  obtain ⟨hl1, _, _, hposs, hnegs, hneglen, _, hndf⟩ := sampleList_ok_shape hflen hs
  refine ⟨hl1, ?_, feats, hmem, hposs, hneglen, fun m hm => (hnegmem m (hnegs hm)).2⟩
  exact hndf (hnd _ hmem) hnegnd (fun m hm => (hnegmem m hm).2)

/-- C3, witness: user 0 rated movies 5 and 6 (catalog `[5, 6, 7]`); with one
positive and one negative per list the produced example `([5, 7], [3, 0])`
has length 2, no duplicates, and positives precede negatives. -/
theorem C3_witness :
    ([5, 7] : List ℕ).length = 1 + 1 ∧ ([5, 7] : List ℕ).Nodup ∧
    ∃ feats, ((0 : ℕ), feats) ∈ groupRatings ([((0 : ℕ), (5 : ℕ), (3 : ℚ)), (0, 6, 4)]) ∧
      ([5, 7] : List ℕ).take 1 ⊆ feats.1 ∧ (([5, 7] : List ℕ).drop 1).length = 1 ∧
      ∀ m ∈ ([5, 7] : List ℕ).drop 1, m ∉ feats.1 :=
  C3_spec (fun l => List.Perm.refl l) (by decide)
    (show movielens_to_listwise id ([((0 : ℕ), (5 : ℕ), (3 : ℚ)), (0, 6, 4)])
        [5, 6, 7] 1 0 1 1 ⟨0⟩ = .ok ([(0, ([5, 7], [3, 0]))], []) from rfl)
    ((0 : ℕ), ([5, 7] : List ℕ), ([3, 0] : List ℚ)) (by decide)

/-- C4: every positive entry of a produced List Example is one of the user's
observed `(movie_id, user_rating)` pairs, and every negative entry carries
rating 0 and an id that is in the catalog but was never rated by that user. -/
theorem C4_spec {α U : Type} [DecidableEq α] [DecidableEq U] [Inhabited α]
    {setOrder : List α → List α} {ratings : List (U × α × ℚ)} {movieIds : List α}
    {tc sc np nn : Nat} {r : Rng} {tr te : List (U × List α × List ℚ)}
    (hso : ∀ l, (setOrder l).Perm l)
    (h : movielens_to_listwise setOrder ratings movieIds tc sc np nn r = .ok (tr, te)) :
    ∀ x ∈ tr ++ te, ∃ feats, (x.1, feats) ∈ groupRatings ratings ∧
      (x.2.1.take np).zip (x.2.2.take np) ⊆ feats.1.zip feats.2 ∧
      (∀ m ∈ x.2.1.drop np, m ∈ movieIds ∧ m ∉ feats.1) ∧
      x.2.2.drop np = List.replicate nn 0 := by
  obtain ⟨r', hgo⟩ := movielens_to_listwise_ok h
  intro x hx
  obtain ⟨feats, hmem, r₀, r₁, hs⟩ :=
    listwiseGo_ok_mem setOrder movieIds.dedup _ r hgo x hx
  have hflen := groupRatings_featlen ratings _ hmem
  dsimp only at hflen
  obtain ⟨hnegmem, _⟩ := negs_props setOrder hso movieIds feats.1
  obtain ⟨_, _, hzip, _, hnegs, _, hdropq, _⟩ := sampleList_ok_shape hflen hs
  exact ⟨feats, hmem, hzip, fun m hm => hnegmem m (hnegs hm), hdropq⟩

/-- C4, witness: in the example `([5, 7], [3, 0])` for user 0, the positive
`(5, 3)` is an observed pair and the negative 7 is an unrated catalog movie
with rating 0. -/
theorem C4_witness :
    ∃ feats, ((0 : ℕ), feats) ∈ groupRatings ([((0 : ℕ), (5 : ℕ), (3 : ℚ)), (0, 6, 4)]) ∧
      ((([5, 7] : List ℕ).take 1).zip (([3, 0] : List ℚ).take 1)) ⊆ feats.1.zip feats.2 ∧
      (∀ m ∈ ([5, 7] : List ℕ).drop 1, m ∈ ([5, 6, 7] : List ℕ) ∧ m ∉ feats.1) ∧
      ([3, 0] : List ℚ).drop 1 = List.replicate 1 0 :=
  C4_spec (fun l => List.Perm.refl l)
    (show movielens_to_listwise id ([((0 : ℕ), (5 : ℕ), (3 : ℚ)), (0, 6, 4)])
        [5, 6, 7] 1 0 1 1 ⟨0⟩ = .ok ([(0, ([5, 7], [3, 0]))], []) from rfl)
    ((0 : ℕ), ([5, 7] : List ℕ), ([3, 0] : List ℚ)) (by decide)

/-- C5, counterexample: with user 0 owning a single rating and `num_pos = 2`,
the whole conversion fails with the `ValueError` from `random.sample`: the
error is not confined to user 0, and user 1, whose population is sufficient,
gets no lists either (the batch produces no output at all). -/
theorem C5_counterexample :
    movielens_to_listwise id
        ([((0 : ℕ), (5 : ℕ), (3 : ℚ)), (1, 6, 4), (1, 7, 5)]) [5, 6, 7]
        1 0 2 0 ⟨0⟩ = .error () ∧
    (1, ([6, 7], [4, 5])) ∈
      groupRatings ([((0 : ℕ), (5 : ℕ), (3 : ℚ)), (1, 6, 4), (1, 7, 5)]) :=
  ⟨rfl, by decide⟩

/-- C5, amended: when a requested sample size exceeds the available population
for some user (`num_pos` exceeds the user's rated count, or `num_neg` exceeds
the unrated count), the conversion fails with an insufficient-population error
that aborts the entire batch and produces no output; it never silently
truncates a sample. -/
theorem C5_spec {α U : Type} [DecidableEq α] [DecidableEq U] [Inhabited α]
    {setOrder : List α → List α} {ratings : List (U × α × ℚ)} {movieIds : List α}
    {tc sc np nn : Nat} {r : Rng} {u : U} {feats : List α × List ℚ}
    (hmem : (u, feats) ∈ groupRatings ratings)
    (hins : feats.1.length < np ∨
      (setOrder (movieIds.dedup.filter fun m => decide (m ∉ feats.1))).length < nn)
    (htc : 1 ≤ tc) :
    movielens_to_listwise setOrder ratings movieIds tc sc np nn r = .error () := by
  unfold movielens_to_listwise
  rw [listwiseGo_error setOrder movieIds.dedup htc (groupRatings ratings) r
    ⟨(u, feats), hmem, hins⟩]

/-- C5, witness: user 0 rated one movie but `num_pos = 2`, so the conversion
errors. -/
theorem C5_witness :
    movielens_to_listwise id ([((0 : ℕ), (5 : ℕ), (3 : ℚ))]) [5] 1 0 2 0 ⟨0⟩ =
      .error () :=
  C5_spec
    (show ((0 : ℕ), (([5] : List ℕ), ([3] : List ℚ))) ∈
      groupRatings ([((0 : ℕ), (5 : ℕ), (3 : ℚ))]) by decide)
    (Or.inl (by decide)) (by decide)

/-- C6, counterexample: two enumerations of the same negative id set (the
lists `[1, 2]` and `[2, 1]` are permutations of each other, as Python's
hash-order set iteration may produce in two interpreter runs) give different
outputs for the same random seed and the same datasets, so the pipeline is
not a function of the seed and the inputs alone. -/
theorem C6_counterexample :
    ([2, 1] : List ℕ).Perm [1, 2] ∧
    (movielens_to_listwise id ([((0 : ℕ), (5 : ℕ), (3 : ℚ))]) [5, 1, 2]
        1 0 0 1 ⟨0⟩).toOption.map Prod.fst ≠
      (movielens_to_listwise List.reverse ([((0 : ℕ), (5 : ℕ), (3 : ℚ))]) [5, 1, 2]
        1 0 0 1 ⟨0⟩).toOption.map Prod.fst := by
  decide

/-- C6, amended: the listwise pipeline is deterministic given the random seed,
the input datasets AND the enumeration order of the negative id sets: two runs
whose set enumerations agree produce identical outputs. -/
theorem C6_spec {α U : Type} [DecidableEq α] [DecidableEq U] [Inhabited α]
    (so₁ so₂ : List α → List α) (h : ∀ l, so₁ l = so₂ l)
    (ratings : List (U × α × ℚ)) (movieIds : List α)
    (tc sc np nn : Nat) (r : Rng) :
    movielens_to_listwise so₁ ratings movieIds tc sc np nn r =
      movielens_to_listwise so₂ ratings movieIds tc sc np nn r := by
  have hso : so₁ = so₂ := funext h
  rw [hso]

/-- C6, witness: reversing twice is the identity enumeration, so the two runs
coincide. -/
theorem C6_witness :
    movielens_to_listwise (fun l : List ℕ => l.reverse.reverse)
        ([((0 : ℕ), (5 : ℕ), (3 : ℚ))]) [5, 6] 1 0 1 1 ⟨0⟩ =
      movielens_to_listwise id ([((0 : ℕ), (5 : ℕ), (3 : ℚ))]) [5, 6] 1 0 1 1 ⟨0⟩ :=
  C6_spec (fun l : List ℕ => l.reverse.reverse) id
    (fun l => List.reverse_reverse l)
    ([((0 : ℕ), (5 : ℕ), (3 : ℚ))]) [5, 6] 1 0 1 1 ⟨0⟩

end Movielens
